import Mathlib

set_option maxRecDepth 100000

/-!
Verification development for the quiz-app backend.

The definitions below are a shallow embedding of the TypeScript sources:

* `src/services/topic-segmentation.service.ts` — `normalizeTopics` and its
  helpers (`estimateTokens`, `getContentLength`, `getTopicTokenEstimate`,
  `splitTopic`, and the four normalization passes);
* `src/services/topic-quiz-generator.service.ts` — question-count selection
  and the response schema validation;
* `src/utils/retry.ts` — `retryWithBackoff`;
* `src/controllers/quiz.controller.ts` — `getQuizById`, `submitQuiz` and the
  commit phase of `generateQuizFromTopics`;
* `src/services/agent-orchestrator.service.ts` — the commit phase of
  `generateQuizAutomatically` and the sequential topic persistence of
  `orchestrateQuiz`.

JavaScript numbers are modeled as `Nat` (lengths, counts) or `Int`
(answer indices, which user input may make negative); strings as `String`;
interaction with the database and the LLM is modeled by passing the values
read from, or produced by, those collaborators as explicit arguments.
-/

namespace QuizApp

/-- Quiz lifecycle status (`processing`, `processing_topics`, `ready`, `failed`). -/
inductive QuizStatus where
  | processing
  | processingTopics
  | ready
  | failed
deriving DecidableEq, Repr

/-- One multiple-choice question, as persisted (`MCQ` in
`quiz-generator.service.ts`): question text, options, index of the correct
option. -/
structure MCQ where
  question : String
  options : List String
  answerIndex : Int
deriving DecidableEq, Repr

/-- Raw segment produced by `segmentContentByHeadings`: heading title, heading
level (1–3) and the paragraphs collected under the heading
(`RawTopic` in `topic-segmentation.service.ts`). -/
structure RawTopic where
  title : String
  level : Nat
  content : List String
deriving DecidableEq, Repr, Inhabited

/-- Normalized topic ready for DB storage (`NormalizedTopic` in
`topic-segmentation.service.ts`). `parentIndex` is a positional reference into
the same output list. -/
structure NormalizedTopic where
  title : String
  summary : Option String
  level : Nat
  parentIndex : Option Nat
  content : List String
  tokenEstimate : Nat
deriving DecidableEq, Repr, Inhabited

/-- Token estimate for a text: `Math.ceil(text.length / 4)`
(`estimateTokens` in `topic-segmentation.service.ts`). -/
def estimateTokens (text : String) : Nat :=
  (text.length + 3) / 4

/-- Total content length: `content.join(" ").length`
(`getContentLength` in `topic-segmentation.service.ts`). -/
def getContentLength (content : List String) : Nat :=
  (String.intercalate " " content).length

/-- Token estimate of a topic over its title plus joined content:
`estimateTokens(title + " " + content.join(" "))`
(`getTopicTokenEstimate` in `topic-segmentation.service.ts`). -/
def getTopicTokenEstimate (t : RawTopic) : Nat :=
  estimateTokens (t.title ++ " " ++ String.intercalate " " t.content)

/-- Sum of the paragraph lengths of a content list, without the joining
spaces; a helper for reasoning about the split pass. -/
def paraSum (content : List String) : Nat :=
  (content.map String.length).sum

/-- Chunk constructor used by the split loops of `splitTopic`: the first chunk
keeps the topic title, later chunks are titled `"<title> (Part N)"`. -/
def mkChunk (title : String) (level : Nat) (priorChunks : Nat) (cur : List String) : RawTopic :=
  { title := if priorChunks = 0 then title else title ++ " (Part " ++ toString (priorChunks + 1) ++ ")"
    level := level
    content := cur }

/-- Paragraph-packing loop of `splitTopic`: walks the remaining paragraphs,
flushing the current chunk whenever adding the next paragraph would exceed
`chunkSize` characters and the current chunk is non-empty; paragraphs are
never split. State: emitted chunks, current chunk, current length. -/
def splitGo (title : String) (level : Nat) (chunkSize : Nat) :
    List String → List RawTopic → List String → Nat → List RawTopic
  | [], chunks, cur, _ =>
      if cur = [] then chunks else chunks ++ [mkChunk title level chunks.length cur]
  | p :: ps, chunks, cur, curLen =>
      if curLen + p.length > chunkSize ∧ cur ≠ [] then
        splitGo title level chunkSize ps
          (chunks ++ [mkChunk title level chunks.length cur]) [p] p.length
      else
        splitGo title level chunkSize ps chunks (cur ++ [p]) (curLen + p.length)

/-- Splits a topic into chunks when its token estimate exceeds `maxTokens`
(`splitTopic` in `topic-segmentation.service.ts`). The chunk size is
`Math.floor(maxTokens * 4 * 0.8)` characters, written here as
`maxTokens * 32 / 10`, which agrees with the floating-point computation at the
single call site `maxTokens = 8000` (both yield 25600). -/
def splitTopic (t : RawTopic) (maxTokens : Nat) : List RawTopic :=
  if getTopicTokenEstimate t ≤ maxTokens then [t]
  else
    let chunks := splitGo t.title t.level (maxTokens * 32 / 10) t.content [] [] 0
    if chunks = [] then [t] else chunks

/-- One step of the merge-small pass (step 1 of `normalizeTopics`), with the
accumulator kept in reverse order so the most recently produced segment is at
the head. A segment whose joined content length is below 300 is appended into
the previous segment when one exists; titles are concatenated as `"A / B"`
only when they differ. -/
def mergeStep (acc : List RawTopic) (t : RawTopic) : List RawTopic :=
  match acc with
  | [] => [t]
  | prev :: rest =>
      if getContentLength t.content < 300 then
        { prev with
            content := prev.content ++ t.content
            title := if prev.title ≠ t.title then prev.title ++ " / " ++ t.title else prev.title }
          :: rest
      else
        t :: prev :: rest

/-- Step 1 of `normalizeTopics`: merge undersized segments into their
predecessor. -/
def mergeSmallPass (raw : List RawTopic) : List RawTopic :=
  (raw.foldl mergeStep []).reverse

/-- Step 2 of `normalizeTopics`: split every merged segment whose token
estimate exceeds 8000. -/
def splitPass (l : List RawTopic) : List RawTopic :=
  l.flatMap (fun t => splitTopic t 8000)

/-- Comparison key of the cap pass sort. -/
def lenLE (a b : RawTopic) : Prop :=
  getContentLength a.content ≤ getContentLength b.content

instance : DecidableRel lenLE := fun a b => by
  unfold lenLE; infer_instance

/-- Ascending stable sort by joined content length, modeling
`[...normalized].sort((a, b) => getContentLength(a.content) - getContentLength(b.content))`.
JavaScript `Array.prototype.sort` is specified to be stable, and a stable
sort of a list by a total preorder is unique, so `List.insertionSort`
(which is stable for `lenLE`) is the same function. -/
def sortByLen (l : List RawTopic) : List RawTopic :=
  l.insertionSort lenLE

/-- Overflow absorption of the cap pass: every overflow segment is appended
into the accumulator, joining titles with `" / "` unconditionally. -/
def absorbAll (first : RawTopic) (toMerge : List RawTopic) : RawTopic :=
  toMerge.foldl
    (fun acc t =>
      { acc with content := acc.content ++ t.content, title := acc.title ++ " / " ++ t.title })
    first

/-- Step 3 of `normalizeTopics`: when more than 50 segments remain, sort
ascending by content length, merge the smallest `count − 50` segments into the
smallest kept segment, and keep the remaining 50 in sorted order. -/
def capPass (l : List RawTopic) : List RawTopic :=
  if l.length ≤ 50 then l
  else
    let sorted := sortByLen l
    let toMerge := sorted.take (l.length - 50)
    let toKeep := sorted.drop (l.length - 50)
    match toKeep with
    | [] => []
    | first :: rest => absorbAll first toMerge :: rest

/-- Summary derivation of step 4 of `normalizeTopics`: the first paragraph
truncated to 200 characters (with an ellipsis when longer), only when that
first paragraph exceeds 100 characters. -/
def deriveSummary (content : List String) : Option String :=
  match content with
  | [] => none
  | p :: _ =>
      if 100 < p.length then
        some (p.take 200 ++ if 200 < p.length then "..." else "")
      else none

/-- Step 4 of `normalizeTopics`: walk the capped list with a stack of
`(level, index)` pairs; pop entries whose level is at least the current level;
the remaining top of stack, if any, is the parent. `i` is the index of the
next item, the stack head is the top. -/
def hierTopics : List RawTopic → Nat → List (Nat × Nat) → List NormalizedTopic
  | [], _, _ => []
  | t :: rest, i, stack =>
      let stack' := stack.dropWhile (fun e => t.level ≤ e.1)
      { title := t.title
        summary := deriveSummary t.content
        level := t.level
        parentIndex := stack'.head?.map Prod.snd
        content := t.content
        tokenEstimate := getTopicTokenEstimate t }
        :: hierTopics rest (i + 1) ((t.level, i) :: stack')

/-- Step 4 of `normalizeTopics` applied to the whole list. -/
def hierarchyPass (l : List RawTopic) : List NormalizedTopic :=
  hierTopics l 0 []

/-- The normalizer (`normalizeTopics` in `topic-segmentation.service.ts`):
merge small, split large, cap to 50, assign hierarchy. -/
def normalizeTopics (raw : List RawTopic) : List NormalizedTopic :=
  if raw = [] then []
  else hierarchyPass (capPass (splitPass (mergeSmallPass raw)))

/-- Persisted topic row as created by step 5 of `orchestrateQuiz`
(`agent-orchestrator.service.ts`): topics are created sequentially in
normalized order, so the generated database id of the `i`-th created row is
modeled by its creation position `i`. Only the claim-relevant fields are kept
(`parentId` resolution and `level`). -/
structure PersistedTopic where
  createdOrder : Nat
  level : Nat
  parentId : Option Nat
deriving DecidableEq, Repr, Inhabited

/-- Creation of the `i`-th topic row in `orchestrateQuiz` step 5:
`parentId` is resolved from `parentIndex` only when it points strictly before
the current position (`topic.parentIndex !== undefined && topic.parentIndex < i`). -/
def mkPersisted (i : Nat) (t : NormalizedTopic) : PersistedTopic :=
  { createdOrder := i
    level := t.level
    parentId :=
      match t.parentIndex with
      | some p => if p < i then some p else none
      | none => none }

/-- Sequential persistence loop of `orchestrateQuiz` step 5. -/
def persistGo (i : Nat) : List NormalizedTopic → List PersistedTopic
  | [] => []
  | t :: rest => mkPersisted i t :: persistGo (i + 1) rest

/-- Sequential persistence of the whole normalized batch. -/
def persistTopics (ts : List NormalizedTopic) : List PersistedTopic :=
  persistGo 0 ts

/-- Topic input of the per-topic quiz generator
(`TopicInput` in `topic-quiz-generator.service.ts`). -/
structure TopicInput where
  title : String
  content : List String
deriving DecidableEq, Repr

/-- Target question count of `generateQuizForTopic`: content length below 500
characters gives 2 questions, above 2000 gives 4, otherwise 3
(`topic.content.join(" ").length` is `getContentLength`). -/
def questionCountForTopic (topic : TopicInput) : Nat :=
  let contentLength := getContentLength topic.content
  if contentLength < 500 then 2
  else if 2000 < contentLength then 4
  else 3

/-- JavaScript `String.prototype.trim`: removes leading and trailing
whitespace. Implemented structurally on the character list so that it is
evaluable (the core `String.trim` is defined by well-founded recursion on
byte positions and cannot be evaluated by the kernel). -/
def strTrim (s : String) : String :=
  String.mk (((s.data.dropWhile Char.isWhitespace).reverse.dropWhile
    Char.isWhitespace).reverse)

/-- Raw question object as parsed from the LLM JSON before validation. -/
structure RawQuestion where
  question : String
  options : List String
  answerIndex : Int
deriving DecidableEq, Repr

/-- The Zod schema `topicQuizResponseSchema` of
`topic-quiz-generator.service.ts`: 2–4 questions, each with non-empty text,
exactly 4 non-empty options, and an integer answer index in `[0, 3]`
(integrality is carried by the `Int` type). -/
def topicQuizSchemaCheck (qs : List RawQuestion) : Bool :=
  decide (2 ≤ qs.length) && decide (qs.length ≤ 4) &&
    qs.all fun q =>
      decide (1 ≤ q.question.length) && decide (q.options.length = 4) &&
        q.options.all (fun o => decide (1 ≤ o.length)) &&
        decide (0 ≤ q.answerIndex) && decide (q.answerIndex ≤ 3)

/-- Validation performed inside `generateQuizForTopic` on a parsed response:
the Zod schema, then the additional per-question checks (answer index bounds
again, and every option non-empty after trimming), then trimming of the
question text and options. Returns `none` when any check fails, which the
caller turns into a retried call. -/
def validateTopicQuizResponse (qs : List RawQuestion) : Option (List MCQ) :=
  if topicQuizSchemaCheck qs then
    if qs.all (fun q =>
        decide (0 ≤ q.answerIndex) && decide (q.answerIndex ≤ 3) &&
          q.options.all (fun o => decide (0 < (strTrim o).length))) then
      some (qs.map fun q =>
        { question := strTrim q.question
          options := q.options.map strTrim
          answerIndex := q.answerIndex })
    else none
  else none

/-- Observable trace of one run of `retryWithBackoff` (`utils/retry.ts`):
final result, number of calls to the wrapped function, and the sequence of
waits performed between calls. -/
structure RetryTrace (E A : Type) where
  result : Except E A
  calls : Nat
  delays : List Nat
deriving Repr

/-- Loop of `retryWithBackoff`: `attempt` is the current attempt index (the
source loop variable), `remaining` the number of further attempts allowed
(`maxRetries - attempt`). The outcome of the `k`-th call is `f k`. On failure
with attempts remaining it waits `baseDelayMs * 2 ^ attempt` and retries; on
the final failure it re-raises the last error unchanged. -/
def retryGo (f : Nat → Except E A) (baseDelayMs : Nat) (attempt : Nat) :
    Nat → RetryTrace E A
  | 0 =>
      match f attempt with
      | .ok a => ⟨.ok a, 1, []⟩
      | .error e => ⟨.error e, 1, []⟩
  | remaining + 1 =>
      match f attempt with
      | .ok a => ⟨.ok a, 1, []⟩
      | .error _ =>
          let t := retryGo f baseDelayMs (attempt + 1) remaining
          ⟨t.result, t.calls + 1, baseDelayMs * 2 ^ attempt :: t.delays⟩

/-- The retrier `retryWithBackoff(fn, maxRetries, baseDelayMs)`: attempts run
for `attempt = 0 .. maxRetries` inclusive. -/
def retryWithBackoff (f : Nat → Except E A) (maxRetries : Nat := 3)
    (baseDelayMs : Nat := 1000) : RetryTrace E A :=
  retryGo f baseDelayMs 0 maxRetries

/-- Quiz row as read by the controllers (fields used by `getQuizById` and
`submitQuiz`). -/
structure QuizRow where
  id : String
  userId : String
  sourceUrl : String
  title : Option String
  questions : List MCQ
  status : QuizStatus
  createdAt : Nat
deriving DecidableEq, Repr

/-- Question as exposed by the quiz read boundary: the destructuring
`({ answerIndex, ...question }) => question` in `getQuizById` keeps only the
text and the options. -/
structure PublicQuestion where
  question : String
  options : List String
deriving DecidableEq, Repr

/-- Projection performed by `getQuizById` on each stored question. -/
def toPublicQuestion (q : MCQ) : PublicQuestion :=
  { question := q.question, options := q.options }

/-- Response body of `GET /api/quizzes/:id`. -/
structure GetQuizResponse where
  id : String
  sourceUrl : String
  title : Option String
  questions : Option (List PublicQuestion)
  status : QuizStatus
  createdAt : Nat
deriving DecidableEq, Repr

/-- The read operation `getQuizById` (`quiz.controller.ts`), given the row
found for the id and the authenticated user id: after the ownership check,
the response carries the questions stripped of `answerIndex`, and only when
the quiz is ready and has questions. -/
def getQuizById (quiz : QuizRow) (authUserId : Option String) :
    Except String GetQuizResponse :=
  if authUserId ≠ some quiz.userId then .error "Forbidden"
  else
    .ok
      { id := quiz.id
        sourceUrl := quiz.sourceUrl
        title := quiz.title
        questions :=
          if quiz.status = QuizStatus.ready ∧ quiz.questions ≠ [] then
            some (quiz.questions.map toPublicQuestion)
          else none
        status := quiz.status
        createdAt := quiz.createdAt }

/-- Rewrites the stored answer index of the question at each position `i` to
`f i`, leaving everything else unchanged; used to state that the read
boundary does not depend on the stored answer indices. -/
def withAnswerGo (f : Nat → Int) (i : Nat) : List MCQ → List MCQ
  | [] => []
  | q :: qs => { q with answerIndex := f i } :: withAnswerGo f (i + 1) qs

/-- A quiz row whose stored answer indices have been arbitrarily rewritten. -/
def setAnswerIndices (quiz : QuizRow) (f : Nat → Int) : QuizRow :=
  { quiz with questions := withAnswerGo f 0 quiz.questions }

/-- Per-question grading entry of the `submitQuiz` response. -/
structure AnswerResult where
  questionIndex : Nat
  correct : Bool
  correctAnswerIndex : Int
  userAnswerIndex : Int
deriving DecidableEq, Repr

/-- Response body of `POST /api/quizzes/:id/submit`. -/
structure SubmitResponse where
  quizId : String
  score : Nat
  correctCount : Nat
  totalQuestions : Nat
  percentage : Nat
  results : List AnswerResult
deriving DecidableEq, Repr

/-- Half-up rounding of `c / t * 100`, the value of
`Math.round((correctCount / totalQuestions) * 100)` for the ratios reached
here (`Math.round(x) = Math.floor(x + 1/2)` on non-negative arguments). -/
def roundHalfUpPct (c t : Nat) : Nat :=
  (200 * c + t) / (2 * t)

/-- Grading map of `submitQuiz`: one entry per question, comparing the
submitted index with the stored one. -/
def scoreResults : List MCQ → List Int → Nat → List AnswerResult
  | q :: qs, a :: as, i =>
      { questionIndex := i
        correct := decide (a = q.answerIndex)
        correctAnswerIndex := q.answerIndex
        userAnswerIndex := a } :: scoreResults qs as (i + 1)
  | _, _, _ => []

/-- The scoring operation `submitQuiz` (`quiz.controller.ts`), given the row
found for the id, the authenticated user id and the submitted answer array:
ownership, readiness, length and range checks, then the pure grading. -/
def submitQuiz (quiz : QuizRow) (authUserId : Option String)
    (answers : List Int) : Except String SubmitResponse :=
  if authUserId ≠ some quiz.userId then .error "Forbidden"
  else if quiz.status ≠ QuizStatus.ready then .error "Quiz is not ready"
  else if answers.length ≠ quiz.questions.length then
    .error "Number of answers does not match number of questions"
  else if ¬ answers.all (fun a => decide (0 ≤ a) && decide (a ≤ 3)) then
    .error "Invalid answer"
  else
    let results := scoreResults quiz.questions answers 0
    let correctCount := results.countP (·.correct)
    let totalQuestions := quiz.questions.length
    let score := roundHalfUpPct correctCount totalQuestions
    .ok
      { quizId := quiz.id
        score := score
        correctCount := correctCount
        totalQuestions := totalQuestions
        percentage := score
        results := results }

/-- Swap of two positions of a list, total: out-of-range indices leave the
list unchanged. -/
def listSwap (l : List α) (i j : Nat) : List α :=
  match l[i]?, l[j]? with
  | some a, some b => (l.set i b).set j a
  | _, _ => l

/-- Fisher–Yates loop of the question-generation commit phase: `i` runs from
`length − 1` down to `1`; the successive random draws
`Math.floor(Math.random() * (i + 1))` are supplied by the list `js`. -/
def fyGo (l : List α) : Nat → List Nat → List α
  | 0, _ => l
  | _ + 1, [] => l
  | i + 1, j :: rest => fyGo (listSwap l (i + 1) j) i rest

/-- Fisher–Yates shuffle with the random draws passed explicitly. -/
def fisherYates (l : List α) (js : List Nat) : List α :=
  fyGo l (l.length - 1) js

/-- Quiz record fields touched by the question-generation commit phase. -/
structure QuizRecord where
  status : QuizStatus
  questions : List MCQ
deriving DecidableEq, Repr

/-- Commit phase of the explicit request `generateQuizFromTopics`
(`quiz.controller.ts`), starting from the flattened per-topic results
`allQuestions` (per-topic failures already degraded to empty lists) and the
random draws `js`; `quiz` is the row fetched at the start of the request.
The phase errors when no questions were produced; otherwise it shuffles,
caps to 10, and unconditionally writes the question list and the `ready`
status — there is no re-read of the quiz before this write. Returns the
updated row and the reported question count. -/
def generateQuizFromTopicsCommit (quiz : QuizRecord) (allQuestions : List MCQ)
    (js : List Nat) : Except String (QuizRecord × Nat) :=
  if allQuestions = [] then
    .error "Failed to generate any questions from the selected topics"
  else
    let finalQuestions := (fisherYates allQuestions js).take 10
    .ok ({ quiz with questions := finalQuestions, status := QuizStatus.ready },
      finalQuestions.length)

/-- The background fallback `generateQuizAutomatically`
(`agent-orchestrator.service.ts`): `quiz` is the row read at the start,
`topicCount` the number of topics found, `generated` the flattened per-topic
results, `js` the random draws, and `reread` the row as re-read just before
the commit (in a sequential re-run `reread = quiz`). Skips when the quiz is
already ready or already has questions, when there are no topics or no
generated questions, and — the race guard — when the re-read row is ready
with a non-empty question list; only otherwise does it write. The returned
row is the state of the quiz after the run. -/
def generateQuizAutomaticallyRun (quiz : QuizRecord) (topicCount : Nat)
    (generated : List MCQ) (js : List Nat) (reread : QuizRecord) : QuizRecord :=
  if quiz.status = QuizStatus.ready ∨ quiz.questions ≠ [] then quiz
  else if topicCount = 0 then quiz
  else if generated = [] then quiz
  else if reread.status = QuizStatus.ready ∧ reread.questions ≠ [] then reread
  else { reread with
          questions := (fisherYates generated js).take 10
          status := QuizStatus.ready }

/-! ### Helper lemmas about the retrier -/

theorem retryGo_calls_le (f : Nat → Except E A) (baseDelayMs : Nat) :
    ∀ (remaining attempt : Nat),
      (retryGo f baseDelayMs attempt remaining).calls ≤ remaining + 1 := by
  intro remaining
  induction remaining with
  | zero =>
      intro attempt
      unfold retryGo
      cases f attempt <;> simp
  | succ n ih =>
      intro attempt
      unfold retryGo
      cases f attempt with
      | ok a => simp
      | error e =>
          have := ih (attempt + 1)
          simp only []
          omega

theorem retryGo_all_fail (f : Nat → Except E A) (baseDelayMs : Nat) :
    ∀ (remaining attempt : Nat),
      (∀ i, attempt ≤ i → i ≤ attempt + remaining → ∃ e, f i = Except.error e) →
      (retryGo f baseDelayMs attempt remaining).result = f (attempt + remaining) ∧
      (retryGo f baseDelayMs attempt remaining).calls = remaining + 1 ∧
      (retryGo f baseDelayMs attempt remaining).delays =
        (List.range remaining).map (fun k => baseDelayMs * 2 ^ (attempt + k)) := by
  intro remaining
  induction remaining with
  | zero =>
      intro attempt h
      obtain ⟨e, he⟩ := h attempt (Nat.le_refl _) (Nat.le_refl _)
      unfold retryGo
      rw [he]
      exact ⟨he.symm, rfl, rfl⟩
  | succ n ih =>
      intro attempt h
      obtain ⟨e, he⟩ := h attempt (Nat.le_refl _) (Nat.le_add_right _ _)
      have ihh := ih (attempt + 1) (fun i h1 h2 => h i (by omega) (by omega))
      unfold retryGo
      rw [he]
      dsimp only
      refine ⟨by rw [ihh.1]; congr 1; omega, by rw [ihh.2.1], ?_⟩
      rw [ihh.2.2, List.range_succ_eq_map, List.map_cons, List.map_map]
      refine List.cons_eq_cons.mpr ⟨by simp, ?_⟩
      apply List.map_congr_left
      intro k _
      simp only [Function.comp_apply]
      have hk : attempt + 1 + k = attempt + (k + 1) := by omega
      rw [hk]

/-! ### Helper lemmas about the read boundary -/

theorem withAnswerGo_map_public (f : Nat → Int) :
    ∀ (qs : List MCQ) (i : Nat),
      (withAnswerGo f i qs).map toPublicQuestion = qs.map toPublicQuestion := by
  intro qs
  induction qs with
  | nil => intro i; rfl
  | cons q rest ih =>
      intro i
      simp [withAnswerGo, toPublicQuestion, ih (i + 1)]

theorem withAnswerGo_eq_nil (f : Nat → Int) (qs : List MCQ) (i : Nat) :
    withAnswerGo f i qs = [] ↔ qs = [] := by
  cases qs <;> simp [withAnswerGo]

/-! ### Concrete inputs used by counterexamples and witnesses -/

/-- A string of `n` copies of `c`. -/
def repChar (n : Nat) (c : Char) : String := String.mk (List.replicate n c)

theorem repChar_length (n : Nat) (c : Char) : (repChar n c).length = n := by
  simp [repChar]

theorem intercalate_singleton (s p : String) : String.intercalate s [p] = p := rfl

/-- Four level-1 segments with joined content lengths 10, 400, 5, 5 — the
input of the merge example of the spec. -/
def exC2 : List RawTopic :=
  [⟨"T1", 1, [repChar 10 'a']⟩, ⟨"T2", 1, [repChar 400 'b']⟩,
   ⟨"T3", 1, [repChar 5 'c']⟩, ⟨"T4", 1, [repChar 5 'd']⟩]

/-- A topic whose single paragraph has 40000 characters, more than both the
32000-character budget and the 25600-character chunk size. -/
def bigParaTopic : RawTopic := ⟨"T", 1, [repChar 40000 'a']⟩

theorem bigParaTopic_contentLength : getContentLength bigParaTopic.content = 40000 := by
  simp [bigParaTopic, getContentLength, intercalate_singleton, repChar_length]

theorem bigParaTopic_tokens : getTopicTokenEstimate bigParaTopic = 10001 := by
  show estimateTokens ("T" ++ " " ++ String.intercalate " " [repChar 40000 'a']) = 10001
  rw [intercalate_singleton, estimateTokens, String.length_append, String.length_append,
    repChar_length]
  decide

theorem bigParaTopic_split : splitTopic bigParaTopic 8000 = [bigParaTopic] := by
  have hbase : splitGo "T" 1 25600 [] [] [repChar 40000 'a'] ((repChar 40000 'a').length)
      = [bigParaTopic] := by
    rw [splitGo, if_neg (by simp)]
    rfl
  have hstep : splitGo "T" 1 25600 [repChar 40000 'a'] [] [] 0 = [bigParaTopic] := by
    rw [splitGo, if_neg (fun h => h.2 rfl), List.nil_append, Nat.zero_add, hbase]
  rw [splitTopic, if_neg (by rw [bigParaTopic_tokens]; omega)]
  show (if splitGo "T" 1 25600 [repChar 40000 'a'] [] [] 0 = [] then [bigParaTopic]
    else splitGo "T" 1 25600 [repChar 40000 'a'] [] [] 0) = [bigParaTopic]
  rw [hstep, if_neg (by simp)]

/-- A ready quiz with five persisted questions whose answer indices are
0, 2, 1, 3, 0. -/
def quizC7 : QuizRow :=
  { id := "quiz-7", userId := "user-7", sourceUrl := "https://example.com",
    title := some "Example", status := QuizStatus.ready, createdAt := 0,
    questions :=
      [⟨"q1", ["a", "b", "c", "d"], 0⟩,
       ⟨"q2", ["a", "b", "c", "d"], 2⟩,
       ⟨"q3", ["a", "b", "c", "d"], 1⟩,
       ⟨"q4", ["a", "b", "c", "d"], 3⟩,
       ⟨"q5", ["a", "b", "c", "d"], 0⟩] }

/-- A question held by a quiz before a re-run of the question-generation
phase. -/
def mcqOld : MCQ := ⟨"old question", ["a", "b", "c", "d"], 0⟩

/-- A question produced by a re-run of the question-generation phase. -/
def mcqNew : MCQ := ⟨"new question", ["a", "b", "c", "d"], 1⟩

/-- Fifty-one level-1 segments with pairwise distinct joined content lengths
1, 2, …, 51. -/
def exC10 : List RawTopic :=
  (List.range 51).map (fun k => ⟨"T", 1, [repChar (k + 1) 'a']⟩)

/-! ### Claim C2 — the merge-small example -/

/-- C2, counterexample: on joined content lengths 10, 400, 5, 5 the merge
pass does produce exactly 2 segments, but the first output segment does not
absorb the paragraphs of the 3rd and 4th input segments — its content is
still only the 10-character paragraph. -/
theorem c2_merge_example_counterexample :
    (mergeSmallPass exC2).length = 2 ∧
    repChar 5 'c' ∉ ((mergeSmallPass exC2).getD 0 default).content ∧
    repChar 5 'd' ∉ ((mergeSmallPass exC2).getD 0 default).content := by
  decide

/-- C2, amended: the merge pass yields exactly 2 segments, and it is the
second segment (the one of length 400) that absorbs the paragraphs of the 3rd
and 4th segments, with the titles joined; the first segment, although shorter
than 300, stays separate because it has no predecessor. -/
theorem c2_merge_example_amended :
    mergeSmallPass exC2 =
      [⟨"T1", 1, [repChar 10 'a']⟩,
       ⟨"T2 / T3 / T4", 1, [repChar 400 'b', repChar 5 'c', repChar 5 'd']⟩] := by
  decide

/-! ### Claim C7 — the scoring example -/

/-- C7: scoring the ready quiz with stored answer indices 0, 2, 1, 3, 0
against the submitted answers 0, 2, 1, 3, 1 reports 4 correct, score 80,
percentage 80, and exactly one incorrect entry, at question index 4. -/
theorem c7_scoring_example :
    (submitQuiz quizC7 (some "user-7") [0, 2, 1, 3, 1]).toOption.map
        (fun r => (r.correctCount, r.score, r.percentage,
          r.results.filter fun x => !x.correct)) =
      some (4, 80, 80, [⟨4, false, 0, 1⟩]) := by
  decide

/-! ### Claim C1 — the race guard of the question-generation phase -/

/-- C1, amended: only the automatic background fallback is guarded. Starting
from an initially read row `quiz` and a commit-time re-read row `reread`:
when the initially read quiz is already ready or already has questions the
run returns it unchanged (so a sequential re-run on a ready quiz with a
non-empty question list never overwrites it), and when the re-read row is
ready with a non-empty question list the run never commits the generated
questions — the final state is one of the two rows read from the store. -/
theorem c1_race_guard_amended (quiz reread : QuizRecord) (topicCount : Nat)
    (generated : List MCQ) (js : List Nat)
    (hready : reread.status = QuizStatus.ready) (hq : reread.questions ≠ []) :
    (quiz.status = QuizStatus.ready ∨ quiz.questions ≠ [] →
      generateQuizAutomaticallyRun quiz topicCount generated js reread = quiz) ∧
    (generateQuizAutomaticallyRun quiz topicCount generated js reread = quiz ∨
      generateQuizAutomaticallyRun quiz topicCount generated js reread = reread) := by
  constructor
  · intro h
    unfold generateQuizAutomaticallyRun
    rw [if_pos h]
  · unfold generateQuizAutomaticallyRun
    by_cases h1 : quiz.status = QuizStatus.ready ∨ quiz.questions ≠ []
    · rw [if_pos h1]; exact Or.inl rfl
    · rw [if_neg h1]
      by_cases h2 : topicCount = 0
      · rw [if_pos h2]; exact Or.inl rfl
      · rw [if_neg h2]
        by_cases h3 : generated = []
        · rw [if_pos h3]; exact Or.inl rfl
        · rw [if_neg h3, if_pos ⟨hready, hq⟩]; exact Or.inr rfl

/-- C1, witness for the amended race-guard theorem at a concrete ready quiz
with one stored question. -/
theorem c1_race_guard_witness :
    (⟨QuizStatus.ready, [mcqOld]⟩ : QuizRecord).status = QuizStatus.ready ∧
    ([mcqOld] : List MCQ) ≠ [] ∧
    generateQuizAutomaticallyRun ⟨QuizStatus.ready, [mcqOld]⟩ 1 [mcqNew] []
      ⟨QuizStatus.ready, [mcqOld]⟩ = ⟨QuizStatus.ready, [mcqOld]⟩ :=
  ⟨rfl, by decide,
    (c1_race_guard_amended ⟨QuizStatus.ready, [mcqOld]⟩ ⟨QuizStatus.ready, [mcqOld]⟩
      1 [mcqNew] [] rfl (by decide)).1 (Or.inl rfl)⟩

/-- C1, counterexample: the explicit topic-selection path re-run on a quiz
that is already ready with a non-empty question list overwrites the stored
question list — there is no re-read guard on that path. -/
theorem c1_explicit_path_overwrites :
    (generateQuizFromTopicsCommit ⟨QuizStatus.ready, [mcqOld]⟩ [mcqNew] []).toOption =
      some (⟨QuizStatus.ready, [mcqNew]⟩, 1) ∧ mcqNew ≠ mcqOld := by
  decide

/-! ### Claim C5 — counterexample (amended theorem follows later) -/

/-- C5, counterexample: a single raw segment with an empty paragraph list is
normalized to one topic whose joined content length is 0, refuting the
unconditional positivity of content lengths. -/
theorem c5_counterexample :
    (normalizeTopics [⟨"A", 1, []⟩]).length = 1 ∧
    getContentLength ((normalizeTopics [⟨"A", 1, []⟩]).getD 0 default).content = 0 := by
  decide

/-! ### Claim C3 — counterexample (amended theorem follows later) -/

/-- C3, counterexample: a segment whose single paragraph has 40000 characters
(content total above 32000, token estimate 10001 above 8000) is returned by
the split pass as a single part, unchanged: it is not split into at least 2
parts, and the token estimate of the resulting single part exceeds 8000. -/
theorem c3_split_counterexample :
    32000 < getContentLength bigParaTopic.content ∧
    splitTopic bigParaTopic 8000 = [bigParaTopic] ∧
    8000 < getTopicTokenEstimate bigParaTopic := by
  refine ⟨?_, bigParaTopic_split, ?_⟩
  · rw [bigParaTopic_contentLength]; omega
  · rw [bigParaTopic_tokens]; omega

/-! ### Claim C10 — counterexample (amended theorem follows later) -/

/-- C10, counterexample: on 51 segments with pairwise distinct content
lengths 1, …, 51, the cap pass keeps 50 segments but its output is not in
ascending order of joined content length: the first kept segment, which
absorbed the overflow, is longer than the second. -/
theorem c10_cap_order_counterexample :
    (capPass exC10).length = 50 ∧
    getContentLength ((capPass exC10).getD 1 default).content <
      getContentLength ((capPass exC10).getD 0 default).content := by
  decide

/-! ### Claim C9 — the completion retrier -/

/-- C9: the retrier calls the wrapped function at most `1 + maxRetries`
times for any outcome function `g`; and when every attempt of `f` up to
`maxRetries` fails, the result is exactly `f maxRetries` — the last error
value re-raised unchanged — after `1 + maxRetries` calls, with a wait of
`baseDelayMs * 2 ^ attempt` after each failed attempt that had attempts
remaining. -/
theorem c9_retry_behavior (f g : Nat → Except E A) (maxRetries baseDelayMs : Nat)
    (hfail : ∀ i, i ≤ maxRetries → ∃ e, f i = Except.error e) :
    (retryWithBackoff g maxRetries baseDelayMs).calls ≤ maxRetries + 1 ∧
    (retryWithBackoff f maxRetries baseDelayMs).result = f maxRetries ∧
    (retryWithBackoff f maxRetries baseDelayMs).calls = maxRetries + 1 ∧
    (retryWithBackoff f maxRetries baseDelayMs).delays =
      (List.range maxRetries).map (fun k => baseDelayMs * 2 ^ k) := by
  have h := retryGo_all_fail f baseDelayMs maxRetries 0
    (fun i h1 h2 => hfail i (by omega))
  refine ⟨retryGo_calls_le g baseDelayMs maxRetries 0, ?_, h.2.1, ?_⟩
  · rw [retryWithBackoff, h.1, Nat.zero_add]
  · rw [retryWithBackoff, h.2.2]
    apply List.map_congr_left
    intro k _
    rw [Nat.zero_add]

/-- C9, witness: with every attempt failing (`f i = error i`), the default
configuration `maxRetries = 3`, `baseDelayMs = 1000` makes 4 calls, re-raises
`error 3` — the error of the last attempt — and waits 1000, 2000, 4000. -/
theorem c9_retry_witness :
    (retryWithBackoff (fun i => (Except.error i : Except Nat Unit)) 3 1000).result
        = Except.error 3 ∧
    (retryWithBackoff (fun i => (Except.error i : Except Nat Unit)) 3 1000).calls = 4 ∧
    (retryWithBackoff (fun i => (Except.error i : Except Nat Unit)) 3 1000).delays
        = [1000, 2000, 4000] := by
  obtain ⟨-, hres, hcalls, hdel⟩ :=
    c9_retry_behavior (fun i => (Except.error i : Except Nat Unit))
      (fun i => (Except.error i : Except Nat Unit)) 3 1000 (fun i _ => ⟨i, rfl⟩)
  exact ⟨by rw [hres], by rw [hcalls], by rw [hdel]; decide⟩

/-! ### Claim C4 — answerIndex never exposed by the read boundary -/

/-- C4: the response of the quiz read operation does not depend on the stored
answer indices — rewriting every stored `answerIndex` arbitrarily leaves the
`getQuizById` response unchanged, for every quiz row and requester; in
particular no returned question object carries an `answerIndex` field. -/
theorem c4_answer_index_not_exposed (quiz : QuizRow) (f : Nat → Int)
    (authUserId : Option String) :
    getQuizById (setAnswerIndices quiz f) authUserId = getQuizById quiz authUserId := by
  unfold getQuizById setAnswerIndices
  simp only [ne_eq]
  by_cases h : authUserId = some quiz.userId
  · simp [h, withAnswerGo_map_public, withAnswerGo_eq_nil]
  · simp [h]

/-! ### Claim C8 — question-count selection and schema looseness -/

/-- A syntactically valid 2-question response. -/
def twoValidQuestions : List RawQuestion :=
  [⟨"Q1?", ["a", "b", "c", "d"], 0⟩, ⟨"Q2?", ["a", "b", "c", "d"], 1⟩]

/-- A syntactically valid 4-question response. -/
def fourValidQuestions : List RawQuestion :=
  [⟨"Q1?", ["a", "b", "c", "d"], 0⟩, ⟨"Q2?", ["a", "b", "c", "d"], 1⟩,
   ⟨"Q3?", ["a", "b", "c", "d"], 2⟩, ⟨"Q4?", ["a", "b", "c", "d"], 3⟩]

/-- C8: the target question count is 2 for content strictly below 500
characters, 4 strictly above 2000, and 3 otherwise; successful validation
guarantees 2–4 questions, each with non-empty text, exactly 4 non-empty
options and an answer index in [0, 3] — but does not pin the count to the
requested one: for every topic some response of a different length still
validates. -/
theorem c8_question_count_and_schema (topic : TopicInput) :
    (getContentLength topic.content < 500 → questionCountForTopic topic = 2) ∧
    (2000 < getContentLength topic.content → questionCountForTopic topic = 4) ∧
    (500 ≤ getContentLength topic.content → getContentLength topic.content ≤ 2000 →
      questionCountForTopic topic = 3) ∧
    (∀ qs mcqs, validateTopicQuizResponse qs = some mcqs →
      2 ≤ mcqs.length ∧ mcqs.length ≤ 4 ∧
      ∀ q ∈ qs, 1 ≤ q.question.length ∧ q.options.length = 4 ∧
        (∀ o ∈ q.options, 1 ≤ o.length) ∧ 0 ≤ q.answerIndex ∧ q.answerIndex ≤ 3) ∧
    (∃ qs mcqs, validateTopicQuizResponse qs = some mcqs ∧
      mcqs.length ≠ questionCountForTopic topic) := by
  refine ⟨?_, ?_, ?_, ?_, ?_⟩
  · intro h; unfold questionCountForTopic; rw [if_pos h]
  · intro h; unfold questionCountForTopic; rw [if_neg (by omega), if_pos h]
  · intro h1 h2; unfold questionCountForTopic; rw [if_neg (by omega), if_neg (by omega)]
  · intro qs mcqs hv
    unfold validateTopicQuizResponse at hv
    by_cases hs : topicQuizSchemaCheck qs = true
    · rw [if_pos hs] at hv
      have hschema := hs
      unfold topicQuizSchemaCheck at hschema
      simp only [Bool.and_eq_true, List.all_eq_true, decide_eq_true_eq] at hschema
      obtain ⟨⟨h2le, hle4⟩, hall⟩ := hschema
      by_cases he : qs.all (fun q =>
          decide (0 ≤ q.answerIndex) && decide (q.answerIndex ≤ 3) &&
            q.options.all (fun o => decide (0 < (strTrim o).length))) = true
      · rw [if_pos he] at hv
        have hlen : mcqs.length = qs.length := by
          rw [← Option.some_inj.mp hv]
          simp
        refine ⟨by omega, by omega, ?_⟩
        intro q hq
        obtain ⟨⟨⟨⟨hq1, hq2⟩, hq3⟩, hq4⟩, hq5⟩ := hall q hq
        exact ⟨hq1, hq2, hq3, hq4, hq5⟩
      · rw [if_neg he] at hv; exact absurd hv (by simp)
    · rw [if_neg hs] at hv; exact absurd hv (by simp)
  · by_cases h2 : questionCountForTopic topic = 2
    · refine ⟨fourValidQuestions,
        [⟨"Q1?", ["a", "b", "c", "d"], 0⟩, ⟨"Q2?", ["a", "b", "c", "d"], 1⟩,
         ⟨"Q3?", ["a", "b", "c", "d"], 2⟩, ⟨"Q4?", ["a", "b", "c", "d"], 3⟩],
        by decide, ?_⟩
      rw [h2]
      decide
    · refine ⟨twoValidQuestions,
        [⟨"Q1?", ["a", "b", "c", "d"], 0⟩, ⟨"Q2?", ["a", "b", "c", "d"], 1⟩],
        by decide, ?_⟩
      rw [show ([(⟨"Q1?", ["a", "b", "c", "d"], 0⟩ : MCQ),
        ⟨"Q2?", ["a", "b", "c", "d"], 1⟩]).length = 2 from by decide]
      exact fun hc => h2 hc.symm

/-- C8, witness at a concrete short topic: two characters of content select a
target count of 2. -/
theorem c8_question_count_witness :
    getContentLength (["hi"] : List String) < 500 ∧
    questionCountForTopic ⟨"T", ["hi"]⟩ = 2 :=
  ⟨by decide, (c8_question_count_and_schema ⟨"T", ["hi"]⟩).1 (by decide)⟩

/-! ### Helper lemmas about content lengths -/

theorem intercalate_go_length (s : String) :
    ∀ (l : List String) (acc : String),
      (String.intercalate.go acc s l).length =
        acc.length + (l.map (fun p => s.length + p.length)).sum := by
  intro l
  induction l with
  | nil => intro acc; simp [String.intercalate.go]
  | cons a as ih =>
      intro acc
      rw [String.intercalate.go, ih]
      simp [String.length_append]
      omega

theorem getContentLength_nil : getContentLength [] = 0 := rfl

theorem getContentLength_cons (p : String) (ps : List String) :
    getContentLength (p :: ps) = p.length + (ps.map (fun q => 1 + q.length)).sum := by
  unfold getContentLength String.intercalate
  rw [intercalate_go_length]
  simp [show (" " : String).length = 1 from rfl]

theorem paraSum_nil : paraSum [] = 0 := rfl

theorem paraSum_cons (p : String) (ps : List String) :
    paraSum (p :: ps) = p.length + paraSum ps := by
  simp [paraSum]

theorem paraSum_append (l1 l2 : List String) :
    paraSum (l1 ++ l2) = paraSum l1 + paraSum l2 := by
  simp [paraSum]

theorem paraSum_singleton (p : String) : paraSum [p] = p.length := by
  simp [paraSum]

theorem getContentLength_pos (l : List String) (h1 : l ≠ [])
    (h2 : ∀ p ∈ l, 0 < p.length) : 0 < getContentLength l := by
  cases l with
  | nil => exact absurd rfl h1
  | cons p ps =>
      rw [getContentLength_cons]
      have := h2 p (List.mem_cons_self _ _)
      omega

/-! ### Helper lemmas about the split loop -/

theorem splitGo_flatten (title : String) (level cs : Nat) :
    ∀ (ps : List String) (chunks : List RawTopic) (cur : List String) (curLen : Nat),
      ((splitGo title level cs ps chunks cur curLen).map RawTopic.content).flatten =
        (chunks.map RawTopic.content).flatten ++ cur ++ ps := by
  intro ps
  induction ps with
  | nil =>
      intro chunks cur curLen
      by_cases h : cur = []
      · simp [splitGo, h]
      · simp [splitGo, h, mkChunk]
  | cons p ps ih =>
      intro chunks cur curLen
      rw [splitGo]
      by_cases h : curLen + p.length > cs ∧ cur ≠ []
      · rw [if_pos h, ih]
        simp [mkChunk]
      · rw [if_neg h, ih]
        simp

theorem splitGo_chunks_prefix (title : String) (level cs : Nat) :
    ∀ (ps : List String) (chunks : List RawTopic) (cur : List String) (curLen : Nat),
      ∃ rest, splitGo title level cs ps chunks cur curLen = chunks ++ rest := by
  intro ps
  induction ps with
  | nil =>
      intro chunks cur curLen
      by_cases h : cur = []
      · exact ⟨[], by simp [splitGo, h]⟩
      · exact ⟨[mkChunk title level chunks.length cur], by simp [splitGo, h]⟩
  | cons p ps ih =>
      intro chunks cur curLen
      rw [splitGo]
      by_cases h : curLen + p.length > cs ∧ cur ≠ []
      · rw [if_pos h]
        obtain ⟨rest, hrest⟩ := ih (chunks ++ [mkChunk title level chunks.length cur]) [p] p.length
        exact ⟨[mkChunk title level chunks.length cur] ++ rest, by rw [hrest, List.append_assoc]⟩
      · rw [if_neg h]
        exact ih chunks (cur ++ [p]) (curLen + p.length)

theorem splitGo_content_ne_nil (title : String) (level cs : Nat) :
    ∀ (ps : List String) (chunks : List RawTopic) (cur : List String) (curLen : Nat),
      ∀ c ∈ splitGo title level cs ps chunks cur curLen, c ∈ chunks ∨ c.content ≠ [] := by
  intro ps
  induction ps with
  | nil =>
      intro chunks cur curLen c hc
      by_cases h : cur = []
      · rw [splitGo, if_pos h] at hc
        exact Or.inl hc
      · rw [splitGo, if_neg h] at hc
        rcases List.mem_append.mp hc with hm | hm
        · exact Or.inl hm
        · right
          rw [List.mem_singleton.mp hm]
          exact h
  | cons p ps ih =>
      intro chunks cur curLen c hc
      rw [splitGo] at hc
      by_cases h : curLen + p.length > cs ∧ cur ≠ []
      · rw [if_pos h] at hc
        rcases ih _ _ _ c hc with hm | hne
        · rcases List.mem_append.mp hm with hm' | hm'
          · exact Or.inl hm'
          · right
            rw [List.mem_singleton.mp hm']
            exact h.2
        · exact Or.inr hne
      · rw [if_neg h] at hc
        exact ih _ _ _ c hc

theorem splitGo_sum_bound (title : String) (level cs : Nat) :
    ∀ (ps : List String) (chunks : List RawTopic) (cur : List String) (curLen : Nat),
      curLen = paraSum cur → paraSum cur ≤ cs → (∀ p ∈ ps, p.length ≤ cs) →
      ∀ c ∈ splitGo title level cs ps chunks cur curLen,
        c ∈ chunks ∨ paraSum c.content ≤ cs := by
  intro ps
  induction ps with
  | nil =>
      intro chunks cur curLen hlen hcur hps c hc
      by_cases h : cur = []
      · rw [splitGo, if_pos h] at hc
        exact Or.inl hc
      · rw [splitGo, if_neg h] at hc
        rcases List.mem_append.mp hc with hm | hm
        · exact Or.inl hm
        · right
          rw [List.mem_singleton.mp hm]
          exact hcur
  | cons p ps ih =>
      intro chunks cur curLen hlen hcur hps c hc
      have hp : p.length ≤ cs := hps p (List.mem_cons_self _ _)
      have hps' : ∀ q ∈ ps, q.length ≤ cs := fun q hq => hps q (List.mem_cons_of_mem _ hq)
      rw [splitGo] at hc
      by_cases h : curLen + p.length > cs ∧ cur ≠ []
      · rw [if_pos h] at hc
        rcases ih _ [p] p.length (paraSum_singleton p).symm
            (by rw [paraSum_singleton]; exact hp) hps' c hc with hm | hb
        · rcases List.mem_append.mp hm with hm' | hm'
          · exact Or.inl hm'
          · right
            rw [List.mem_singleton.mp hm']
            exact hcur
        · exact Or.inr hb
      · rw [if_neg h] at hc
        rcases Decidable.not_and_iff_or_not.mp h with h1 | h2
        · have hle : curLen + p.length ≤ cs := by omega
          exact ih _ (cur ++ [p]) (curLen + p.length)
            (by rw [paraSum_append, paraSum_singleton, hlen])
            (by rw [paraSum_append, paraSum_singleton, ← hlen]; exact hle) hps' c hc
        · have hnil : cur = [] := not_not.mp h2
          subst hnil
          have hlen0 : curLen = 0 := by rw [hlen, paraSum_nil]
          exact ih _ ([] ++ [p]) (curLen + p.length)
            (by rw [List.nil_append, paraSum_singleton, hlen0, Nat.zero_add])
            (by rw [List.nil_append, paraSum_singleton]; exact hp) hps' c hc

/-! ### Helper lemmas about splitTopic -/

theorem splitGo_nil_imp (title : String) (level cs : Nat) :
    ∀ (ps : List String) (cur : List String) (curLen : Nat),
      splitGo title level cs ps [] cur curLen = [] → ps = [] ∧ cur = [] := by
  intro ps
  induction ps with
  | nil =>
      intro cur curLen h
      by_cases hc : cur = []
      · exact ⟨rfl, hc⟩
      · rw [splitGo, if_neg hc] at h
        simp at h
  | cons p ps ih =>
      intro cur curLen h
      rw [splitGo] at h
      by_cases hb : curLen + p.length > cs ∧ cur ≠ []
      · rw [if_pos hb] at h
        obtain ⟨rest, hrest⟩ := splitGo_chunks_prefix title level cs ps
          ([] ++ [mkChunk title level (List.length []) cur]) [p] p.length
        rw [hrest] at h
        simp at h
      · rw [if_neg hb] at h
        obtain ⟨-, hcur⟩ := ih _ _ h
        simp at hcur

theorem splitTopic_flatten (t : RawTopic) (maxTokens : Nat) :
    ((splitTopic t maxTokens).map RawTopic.content).flatten = t.content := by
  unfold splitTopic
  by_cases h : getTopicTokenEstimate t ≤ maxTokens
  · simp [h]
  · rw [if_neg h]
    by_cases hc : splitGo t.title t.level (maxTokens * 32 / 10) t.content [] [] 0 = []
    · simp [hc]
    · simp only [hc, if_neg, ite_false]
      rw [splitGo_flatten]
      simp

theorem splitTopic_ne_nil (t : RawTopic) (maxTokens : Nat) :
    splitTopic t maxTokens ≠ [] := by
  unfold splitTopic
  by_cases h : getTopicTokenEstimate t ≤ maxTokens
  · simp [h]
  · rw [if_neg h]
    by_cases hc : splitGo t.title t.level (maxTokens * 32 / 10) t.content [] [] 0 = []
    · simp [hc]
    · simp [hc]

theorem splitTopic_content_ne_nil (t : RawTopic) (maxTokens : Nat)
    (h : t.content ≠ []) : ∀ c ∈ splitTopic t maxTokens, c.content ≠ [] := by
  intro c hc
  unfold splitTopic at hc
  by_cases hf : getTopicTokenEstimate t ≤ maxTokens
  · rw [if_pos hf] at hc
    rw [List.mem_singleton.mp hc]
    exact h
  · rw [if_neg hf] at hc
    by_cases hnil : splitGo t.title t.level (maxTokens * 32 / 10) t.content [] [] 0 = []
    · simp only [hnil, ite_true] at hc
      rw [List.mem_singleton.mp hc]
      exact h
    · simp only [hnil, ite_false] at hc
      rcases splitGo_content_ne_nil t.title t.level (maxTokens * 32 / 10)
        t.content [] [] 0 c hc with hm | hne
      · simp at hm
      · exact hne

theorem splitTopic_mem_para (t : RawTopic) (maxTokens : Nat) :
    ∀ c ∈ splitTopic t maxTokens, ∀ p ∈ c.content, p ∈ t.content := by
  intro c hc p hp
  have : p ∈ ((splitTopic t maxTokens).map RawTopic.content).flatten :=
    List.mem_flatten.mpr ⟨c.content, List.mem_map_of_mem _ hc, hp⟩
  rw [splitTopic_flatten] at this
  exact this

theorem splitTopic_bound (t : RawTopic) (maxTokens : Nat)
    (h : ∀ p ∈ t.content, p.length ≤ maxTokens * 32 / 10) :
    ∀ c ∈ splitTopic t maxTokens,
      getTopicTokenEstimate c ≤ maxTokens ∨ paraSum c.content ≤ maxTokens * 32 / 10 := by
  intro c hc
  unfold splitTopic at hc
  by_cases hf : getTopicTokenEstimate t ≤ maxTokens
  · rw [if_pos hf] at hc
    rw [List.mem_singleton.mp hc]
    exact Or.inl hf
  · rw [if_neg hf] at hc
    by_cases hnil : splitGo t.title t.level (maxTokens * 32 / 10) t.content [] [] 0 = []
    · simp only [hnil, ite_true] at hc
      obtain ⟨hps, -⟩ := splitGo_nil_imp t.title t.level (maxTokens * 32 / 10)
        t.content [] 0 hnil
      right
      rw [List.mem_singleton.mp hc, hps, paraSum_nil]
      exact Nat.zero_le _
    · simp only [hnil, ite_false] at hc
      rcases splitGo_sum_bound t.title t.level (maxTokens * 32 / 10) t.content [] [] 0
        paraSum_nil.symm (by rw [paraSum_nil]; exact Nat.zero_le _) h c hc with hm | hb
      · simp at hm
      · exact Or.inr hb

/-! ### Helper lemmas about the merge pass -/

/-- Wellformedness of a raw segment: at least one paragraph, every paragraph
non-empty. -/
def WFtopic (t : RawTopic) : Prop :=
  t.content ≠ [] ∧ ∀ p ∈ t.content, 0 < p.length

theorem mergeStep_ne_nil (acc : List RawTopic) (t : RawTopic) :
    mergeStep acc t ≠ [] := by
  cases acc with
  | nil => simp [mergeStep]
  | cons prev rest =>
      unfold mergeStep
      by_cases h : getContentLength t.content < 300
      · simp [h]
      · simp [h]

theorem foldl_mergeStep_ne_nil :
    ∀ (ts : List RawTopic) (acc : List RawTopic), acc ≠ [] →
      ts.foldl mergeStep acc ≠ [] := by
  intro ts
  induction ts with
  | nil => intro acc h; exact h
  | cons t rest ih =>
      intro acc h
      exact ih (mergeStep acc t) (mergeStep_ne_nil acc t)

theorem mergeSmallPass_ne_nil (raw : List RawTopic) (h : raw ≠ []) :
    mergeSmallPass raw ≠ [] := by
  cases raw with
  | nil => exact absurd rfl h
  | cons t ts =>
      unfold mergeSmallPass
      rw [List.foldl_cons]
      have : mergeStep [] t = [t] := rfl
      rw [this]
      intro hrev
      exact foldl_mergeStep_ne_nil ts [t] (by simp) (List.reverse_eq_nil_iff.mp hrev)

theorem mergeStep_WF (acc : List RawTopic) (t : RawTopic)
    (hacc : ∀ x ∈ acc, WFtopic x) (ht : WFtopic t) :
    ∀ x ∈ mergeStep acc t, WFtopic x := by
  intro x hx
  cases acc with
  | nil =>
      rw [List.mem_singleton.mp hx]
      exact ht
  | cons prev rest =>
      simp only [mergeStep] at hx
      by_cases h : getContentLength t.content < 300
      · rw [if_pos h] at hx
        rcases List.mem_cons.mp hx with hm | hm
        · subst hm
          have hprev := hacc prev (List.mem_cons_self _ _)
          refine ⟨?_, ?_⟩
          · simp only []
            intro hni
            exact hprev.1 (List.append_eq_nil.mp hni).1
          · intro p hp
            rcases List.mem_append.mp hp with hp' | hp'
            · exact hprev.2 p hp'
            · exact ht.2 p hp'
        · exact hacc x (List.mem_cons_of_mem _ hm)
      · rw [if_neg h] at hx
        rcases List.mem_cons.mp hx with hm | hm
        · subst hm; exact ht
        · exact hacc x hm

theorem foldl_mergeStep_WF :
    ∀ (ts : List RawTopic) (acc : List RawTopic),
      (∀ x ∈ acc, WFtopic x) → (∀ x ∈ ts, WFtopic x) →
      ∀ x ∈ ts.foldl mergeStep acc, WFtopic x := by
  intro ts
  induction ts with
  | nil => intro acc hacc _ x hx; exact hacc x hx
  | cons t rest ih =>
      intro acc hacc hts x hx
      exact ih (mergeStep acc t)
        (mergeStep_WF acc t hacc (hts t (List.mem_cons_self _ _)))
        (fun y hy => hts y (List.mem_cons_of_mem _ hy)) x hx

theorem mergeSmallPass_WF (raw : List RawTopic) (h : ∀ t ∈ raw, WFtopic t) :
    ∀ t ∈ mergeSmallPass raw, WFtopic t := by
  intro t ht
  unfold mergeSmallPass at ht
  exact foldl_mergeStep_WF raw [] (by simp) h t (List.mem_reverse.mp ht)

/-! ### Helper lemmas about the split pass -/

theorem splitPass_ne_nil (l : List RawTopic) (h : l ≠ []) : splitPass l ≠ [] := by
  cases l with
  | nil => exact absurd rfl h
  | cons t ts =>
      unfold splitPass
      rw [List.flatMap_cons]
      intro hnil
      exact splitTopic_ne_nil t 8000 (List.append_eq_nil.mp hnil).1

theorem splitPass_WF (l : List RawTopic) (h : ∀ t ∈ l, WFtopic t) :
    ∀ c ∈ splitPass l, WFtopic c := by
  intro c hc
  obtain ⟨t, ht, hct⟩ := List.mem_flatMap.mp hc
  have hwf := h t ht
  exact ⟨splitTopic_content_ne_nil t 8000 hwf.1 c hct,
    fun p hp => hwf.2 p (splitTopic_mem_para t 8000 c hct p hp)⟩

/-! ### Helper lemmas about the cap pass -/

instance : IsTotal RawTopic lenLE :=
  ⟨fun _ _ => Nat.le_total _ _⟩

instance : IsTrans RawTopic lenLE :=
  ⟨fun _ _ _ => Nat.le_trans⟩

theorem sortByLen_length (l : List RawTopic) : (sortByLen l).length = l.length :=
  List.length_insertionSort lenLE l

theorem sortByLen_mem (l : List RawTopic) : ∀ x ∈ sortByLen l, x ∈ l := by
  intro x hx
  exact (List.mem_insertionSort lenLE).mp hx

theorem sortByLen_pairwise (l : List RawTopic) : (sortByLen l).Pairwise lenLE :=
  List.sorted_insertionSort lenLE l

theorem capPass_eq_of_le (l : List RawTopic) (h : l.length ≤ 50) : capPass l = l := by
  unfold capPass
  rw [if_pos h]

theorem capPass_cons_struct (l : List RawTopic) (h : 50 < l.length) :
    ∃ first rest, (sortByLen l).drop (l.length - 50) = first :: rest ∧
      capPass l = absorbAll first ((sortByLen l).take (l.length - 50)) :: rest := by
  have hlen : ((sortByLen l).drop (l.length - 50)).length = 50 := by
    rw [List.length_drop, sortByLen_length]
    omega
  cases htk : (sortByLen l).drop (l.length - 50) with
  | nil => rw [htk] at hlen; simp at hlen
  | cons first rest =>
      refine ⟨first, rest, rfl, ?_⟩
      unfold capPass
      rw [if_neg (by omega)]
      simp only [htk]

theorem capPass_length_le (l : List RawTopic) : (capPass l).length ≤ 50 := by
  by_cases h : l.length ≤ 50
  · rw [capPass_eq_of_le l h]; exact h
  · obtain ⟨first, rest, htk, hcap⟩ := capPass_cons_struct l (by omega)
    have hlen : ((sortByLen l).drop (l.length - 50)).length = 50 := by
      rw [List.length_drop, sortByLen_length]
      omega
    rw [htk] at hlen
    rw [hcap]
    simp only [List.length_cons] at hlen ⊢
    omega

theorem capPass_ne_nil (l : List RawTopic) (h : l ≠ []) : capPass l ≠ [] := by
  by_cases hle : l.length ≤ 50
  · rw [capPass_eq_of_le l hle]; exact h
  · obtain ⟨first, rest, -, hcap⟩ := capPass_cons_struct l (by omega)
    rw [hcap]
    simp

theorem absorbAll_content (first : RawTopic) (ts : List RawTopic) :
    (absorbAll first ts).content = first.content ++ (ts.map RawTopic.content).flatten := by
  induction ts generalizing first with
  | nil => simp [absorbAll]
  | cons t rest ih =>
      unfold absorbAll at ih ⊢
      rw [List.foldl_cons, ih]
      simp

theorem capPass_WF (l : List RawTopic) (h : ∀ t ∈ l, WFtopic t) :
    ∀ t ∈ capPass l, WFtopic t := by
  intro t ht
  by_cases hle : l.length ≤ 50
  · rw [capPass_eq_of_le l hle] at ht
    exact h t ht
  · obtain ⟨first, rest, htk, hcap⟩ := capPass_cons_struct l (by omega)
    have hsorted : ∀ x ∈ sortByLen l, WFtopic x := fun x hx => h x (sortByLen_mem l x hx)
    have hkeep : ∀ x ∈ first :: rest, WFtopic x := by
      intro x hx
      rw [← htk] at hx
      exact hsorted x (List.drop_subset _ _ hx)
    have hfirst : WFtopic first := hkeep first (List.mem_cons_self _ _)
    rw [hcap] at ht
    rcases List.mem_cons.mp ht with hm | hm
    · subst hm
      constructor
      · rw [absorbAll_content]
        intro hnil
        exact hfirst.1 (List.append_eq_nil.mp hnil).1
      · intro p hp
        rw [absorbAll_content] at hp
        rcases List.mem_append.mp hp with hp1 | hp1
        · exact hfirst.2 p hp1
        · obtain ⟨cs, hcs, hpcs⟩ := List.mem_flatten.mp hp1
          obtain ⟨tm, htm, rfl⟩ := List.mem_map.mp hcs
          exact (hsorted tm (List.take_subset _ _ htm)).2 p hpcs
    · exact hkeep t (List.mem_cons_of_mem _ hm)

/-! ### Helper lemmas about the hierarchy pass -/

theorem hierTopics_length :
    ∀ (l : List RawTopic) (i : Nat) (st : List (Nat × Nat)),
      (hierTopics l i st).length = l.length := by
  intro l
  induction l with
  | nil => intro i st; rfl
  | cons t rest ih =>
      intro i st
      rw [hierTopics]
      simp only [List.length_cons, ih]

theorem hierTopics_mem :
    ∀ (l : List RawTopic) (i : Nat) (st : List (Nat × Nat)),
      ∀ nt ∈ hierTopics l i st, ∃ t ∈ l, nt.content = t.content := by
  intro l
  induction l with
  | nil => intro i st nt hnt; simp [hierTopics] at hnt
  | cons t rest ih =>
      intro i st nt hnt
      rw [hierTopics] at hnt
      rcases List.mem_cons.mp hnt with hm | hm
      · exact ⟨t, List.mem_cons_self _ _, by rw [hm]⟩
      · obtain ⟨u, hu, hcu⟩ := ih (i + 1) _ nt hm
        exact ⟨u, List.mem_cons_of_mem _ hu, hcu⟩

theorem hierTopics_getD_level :
    ∀ (l : List RawTopic) (i : Nat) (st : List (Nat × Nat)) (k : Nat), k < l.length →
      ((hierTopics l i st).getD k default).level = (l.getD k default).level := by
  intro l
  induction l with
  | nil => intro i st k hk; simp at hk
  | cons t rest ih =>
      intro i st k hk
      rw [hierTopics]
      cases k with
      | zero => rfl
      | succ k0 =>
          simp only [List.getD_cons_succ]
          exact ih (i + 1) _ k0 (by simp at hk; omega)

/-- Level environment for the hierarchy-pass invariant: positions before `i`
are looked up in `env`, positions from `i` on in the remaining input. -/
def envExt (env : Nat → Nat) (i : Nat) (l : List RawTopic) (j : Nat) : Nat :=
  if j < i then env j else (l.getD (j - i) default).level

theorem hierTopics_parent_spec :
    ∀ (l : List RawTopic) (i : Nat) (st : List (Nat × Nat)) (env : Nat → Nat),
      (∀ p ∈ st, p.2 < i ∧ env p.2 = p.1) →
      ∀ k, k < l.length → ∀ j,
        ((hierTopics l i st).getD k default).parentIndex = some j →
        j < i + k ∧ envExt env i l j < (l.getD k default).level := by
  intro l
  induction l with
  | nil => intro i st env hst k hk; simp at hk
  | cons t rest ih =>
      intro i st env hst k hk j
      rw [hierTopics]
      cases k with
      | zero =>
          intro hj
          simp only [List.getD_cons_zero] at hj
          obtain ⟨pr, hpr, hj2⟩ := Option.map_eq_some'.mp hj
          have hmem : pr ∈ st.dropWhile (fun e => t.level ≤ e.1) :=
            List.mem_of_mem_head? hpr
          have hmem' : pr ∈ st := (List.dropWhile_sublist _).subset hmem
          obtain ⟨hlt, henv⟩ := hst pr hmem'
          have hnotle : ¬ (t.level ≤ pr.1) := by
            have hh := List.head?_dropWhile_not (fun e => decide (t.level ≤ e.1)) st
            rw [hpr] at hh
            simpa using hh
          refine ⟨by omega, ?_⟩
          rw [envExt, if_pos (by omega), ← hj2, henv]
          simp only [List.getD_cons_zero]
          omega
      | succ k0 =>
          intro hj
          simp only [List.getD_cons_succ] at hj
          have hst' : ∀ p ∈ (t.level, i) :: st.dropWhile (fun e => t.level ≤ e.1),
              p.2 < i + 1 ∧ (fun j => if j = i then t.level else env j) p.2 = p.1 := by
            intro p hp
            rcases List.mem_cons.mp hp with hm | hm
            · subst hm
              exact ⟨by omega, by simp⟩
            · obtain ⟨hlt, henv⟩ := hst p ((List.dropWhile_sublist _).subset hm)
              refine ⟨by omega, ?_⟩
              simp only []
              rw [if_neg (by omega)]
              exact henv
          obtain ⟨hjlt, hjlevel⟩ := ih (i + 1) ((t.level, i) :: st.dropWhile (fun e => t.level ≤ e.1))
            (fun j => if j = i then t.level else env j) hst' k0 (by simp at hk; omega) j hj
          refine ⟨by omega, ?_⟩
          have : envExt env i (t :: rest) j =
              envExt (fun j => if j = i then t.level else env j) (i + 1) rest j := by
            unfold envExt
            by_cases h1 : j < i
            · simp [h1, show j < i + 1 by omega, show ¬ j = i by omega]
            · by_cases h2 : j = i
              · subst h2
                simp [h1, show j < j + 1 by omega]
              · have hsub : j - i = (j - (i + 1)) + 1 := by omega
                simp only [if_neg h1, if_neg (show ¬ j < i + 1 by omega), hsub,
                  List.getD_cons_succ]
          rw [this]
          exact hjlevel

/-! ### Helper lemmas about sequential persistence -/

theorem persistGo_length :
    ∀ (ts : List NormalizedTopic) (i : Nat), (persistGo i ts).length = ts.length := by
  intro ts
  induction ts with
  | nil => intro i; rfl
  | cons t rest ih => intro i; simp [persistGo, ih]

theorem persistGo_getD :
    ∀ (ts : List NormalizedTopic) (i k : Nat), k < ts.length →
      (persistGo i ts).getD k default = mkPersisted (i + k) (ts.getD k default) := by
  intro ts
  induction ts with
  | nil => intro i k hk; simp at hk
  | cons t rest ih =>
      intro i k hk
      cases k with
      | zero => simp [persistGo]
      | succ k0 =>
          simp only [persistGo, List.getD_cons_succ]
          rw [ih (i + 1) k0 (by simp at hk; omega)]
          congr 1
          omega


/-! ### Claim C3 — amended split-pass guarantees -/

/-- C3, amended: the split pass never splits a paragraph across two parts —
the paragraph lists of the parts concatenate back to exactly the original content —
and, provided every single paragraph is at most 25600 characters (the
80 percent chunk budget), every produced part either already fit the
8000-token estimate (the unsplit case) or packs paragraphs totalling at most
25600 characters. The unconditional 8000-token bound, and the guarantee of at
least 2 parts above 32000 characters, fail when one paragraph alone exceeds
the chunk size (see the counterexample). -/
theorem c3_split_amended (t : RawTopic)
    (h : ∀ p ∈ t.content, p.length ≤ 8000 * 32 / 10) :
    ((splitTopic t 8000).map RawTopic.content).flatten = t.content ∧
    ∀ c ∈ splitTopic t 8000,
      getTopicTokenEstimate c ≤ 8000 ∨ paraSum c.content ≤ 8000 * 32 / 10 :=
  ⟨splitTopic_flatten t 8000, splitTopic_bound t 8000 h⟩

/-- C3, witness at a concrete topic with one short paragraph. -/
theorem c3_split_witness :
    (∀ p ∈ (["hello"] : List String), p.length ≤ 8000 * 32 / 10) ∧
    ((splitTopic ⟨"T", 1, ["hello"]⟩ 8000).map RawTopic.content).flatten = ["hello"] :=
  ⟨by decide, (c3_split_amended ⟨"T", 1, ["hello"]⟩ (by decide)).1⟩

/-! ### Claims C5, C6, C10 — normalization bounds, hierarchy, cap order -/

/-- Two well-formed segments: a level-1 segment and a level-2 segment whose
content is long enough (300 characters) not to be merged away. -/
def exC6 : List RawTopic :=
  [⟨"A", 1, [repChar 10 'a']⟩, ⟨"B", 2, [repChar 300 'b']⟩]

/-- C5, amended: for every non-empty raw segment list in which every segment
has at least one paragraph and every paragraph is non-empty, `normalizeTopics`
produces between 1 and 50 topics, each with joined content length strictly
positive. (Without the paragraph hypotheses the positivity fails — see the
counterexample with an empty paragraph list.) -/
theorem c5_normalize_bounds_amended (raw : List RawTopic) (h1 : raw ≠ [])
    (h2 : ∀ t ∈ raw, t.content ≠ [] ∧ ∀ p ∈ t.content, 0 < p.length) :
    1 ≤ (normalizeTopics raw).length ∧ (normalizeTopics raw).length ≤ 50 ∧
    ∀ nt ∈ normalizeTopics raw, 0 < getContentLength nt.content := by
  have hm := mergeSmallPass_ne_nil raw h1
  have hs := splitPass_ne_nil _ hm
  have hc := capPass_ne_nil _ hs
  have hcWF : ∀ t ∈ capPass (splitPass (mergeSmallPass raw)), WFtopic t :=
    capPass_WF _ (splitPass_WF _ (mergeSmallPass_WF raw h2))
  unfold normalizeTopics
  rw [if_neg h1]
  refine ⟨?_, ?_, ?_⟩
  · rw [hierarchyPass, hierTopics_length]
    have := List.length_pos.mpr hc
    omega
  · rw [hierarchyPass, hierTopics_length]
    exact capPass_length_le _
  · intro nt hnt
    obtain ⟨t, ht, hcontent⟩ := hierTopics_mem _ 0 [] nt hnt
    have hwf := hcWF t ht
    rw [hcontent]
    exact getContentLength_pos _ hwf.1 hwf.2

/-- C5, witness at the concrete two-segment input. -/
theorem c5_normalize_bounds_witness :
    (exC6 ≠ [] ∧ ∀ t ∈ exC6, t.content ≠ [] ∧ ∀ p ∈ t.content, 0 < p.length) ∧
    1 ≤ (normalizeTopics exC6).length ∧ (normalizeTopics exC6).length ≤ 50 :=
  ⟨⟨by decide, by decide⟩,
   (c5_normalize_bounds_amended exC6 (by decide) (by decide)).1,
   (c5_normalize_bounds_amended exC6 (by decide) (by decide)).2.1⟩

/-- C6: in the normalized output every defined `parentIndex` points strictly
earlier in the list, to a topic of strictly smaller level; and after
sequential persistence every defined `parentId` references a topic row
created strictly earlier in the batch with strictly smaller level. -/
theorem c6_parent_refs (raw : List RawTopic) (k j : Nat)
    (hk : k < (normalizeTopics raw).length) :
    (((normalizeTopics raw).getD k default).parentIndex = some j →
      j < k ∧ ((normalizeTopics raw).getD j default).level <
        ((normalizeTopics raw).getD k default).level) ∧
    (((persistTopics (normalizeTopics raw)).getD k default).parentId = some j →
      j < k ∧ ((persistTopics (normalizeTopics raw)).getD j default).level <
        ((persistTopics (normalizeTopics raw)).getD k default).level) := by
  by_cases hraw : raw = []
  · rw [hraw] at hk
    simp [normalizeTopics] at hk
  have hnorm : normalizeTopics raw =
      hierTopics (capPass (splitPass (mergeSmallPass raw))) 0 [] := by
    unfold normalizeTopics hierarchyPass
    rw [if_neg hraw]
  have hlen : (normalizeTopics raw).length =
      (capPass (splitPass (mergeSmallPass raw))).length := by
    rw [hnorm, hierTopics_length]
  have hcore : ∀ k1 j1, k1 < (normalizeTopics raw).length →
      ((normalizeTopics raw).getD k1 default).parentIndex = some j1 →
      j1 < k1 ∧ ((normalizeTopics raw).getD j1 default).level <
        ((normalizeTopics raw).getD k1 default).level := by
    intro k1 j1 hk1 hj1
    rw [hnorm] at hj1
    obtain ⟨hlt, hlev⟩ := hierTopics_parent_spec (capPass (splitPass (mergeSmallPass raw)))
      0 [] (fun _ => 0) (by simp) k1 (by rw [← hlen]; exact hk1) j1 hj1
    have hjlt : j1 < k1 := by omega
    refine ⟨hjlt, ?_⟩
    rw [envExt, if_neg (by omega), Nat.sub_zero] at hlev
    rw [hnorm, hierTopics_getD_level _ 0 [] k1 (by rw [← hlen]; exact hk1),
      hierTopics_getD_level _ 0 [] j1 (by rw [← hlen]; omega)]
    exact hlev
  refine ⟨hcore k j hk, ?_⟩
  intro hj
  have hplen : (persistTopics (normalizeTopics raw)).length =
      (normalizeTopics raw).length := persistGo_length _ 0
  rw [persistTopics, persistGo_getD _ 0 k hk, Nat.zero_add] at hj
  unfold mkPersisted at hj
  simp only [] at hj
  cases hpi : ((normalizeTopics raw).getD k default).parentIndex with
  | none => rw [hpi] at hj; simp at hj
  | some p =>
      rw [hpi] at hj
      have hj' : (if p < k then some p else none) = some j := hj
      by_cases hp : p < k
      · rw [if_pos hp] at hj'
        have hpj : p = j := by simpa using hj'
        subst hpj
        obtain ⟨hlt, hlev⟩ := hcore k p hk hpi
        refine ⟨hlt, ?_⟩
        rw [persistTopics, persistGo_getD _ 0 k hk, persistGo_getD _ 0 p (by omega)]
        exact hlev
      · rw [if_neg hp] at hj'
        simp at hj'

/-- C6, witness: in the normalization of the concrete two-segment input, the
level-2 topic at position 1 has `parentIndex` 0, pointing at the earlier
level-1 topic. -/
theorem c6_parent_refs_witness :
    1 < (normalizeTopics exC6).length ∧
    ((normalizeTopics exC6).getD 1 default).parentIndex = some 0 ∧
    (0 < 1 ∧ ((normalizeTopics exC6).getD 0 default).level <
      ((normalizeTopics exC6).getD 1 default).level) :=
  ⟨by decide, by decide, (c6_parent_refs exC6 1 0 (by decide)).1 (by decide)⟩

/-- C10, amended: when more than 50 segments remain, the cap pass keeps the
50 segments that were largest at sorting time, in ascending order of their
content length as measured before the overflow merge: it returns the
sorted-order tail untouched, while the first kept segment absorbs the
overflow (and may therefore end up longer than its successors, so the final
list need not be ascending by post-merge length — see the counterexample).
With 50 segments or fewer the list passes through unchanged. The hierarchy
pass then runs over exactly this capped, reordered list. -/
theorem c10_cap_order_amended (l : List RawTopic) :
    (l.length ≤ 50 → capPass l = l) ∧
    (50 < l.length →
      (capPass l).length = 50 ∧
      ((sortByLen l).drop (l.length - 50)).Pairwise lenLE ∧
      (capPass l).tail = ((sortByLen l).drop (l.length - 50)).tail ∧
      (capPass l).head? = ((sortByLen l).drop (l.length - 50)).head?.map
        (fun first => absorbAll first ((sortByLen l).take (l.length - 50)))) ∧
    (∀ raw : List RawTopic, raw ≠ [] →
      normalizeTopics raw = hierarchyPass (capPass (splitPass (mergeSmallPass raw)))) := by
  refine ⟨capPass_eq_of_le l, ?_, ?_⟩
  · intro h
    obtain ⟨first, rest, htk, hcap⟩ := capPass_cons_struct l h
    have hlen : ((sortByLen l).drop (l.length - 50)).length = 50 := by
      rw [List.length_drop, sortByLen_length]
      omega
    refine ⟨?_, ?_, ?_, ?_⟩
    · rw [hcap]
      rw [htk] at hlen
      simp only [List.length_cons] at hlen ⊢
      omega
    · exact List.Pairwise.sublist (List.drop_sublist _ _) (sortByLen_pairwise l)
    · rw [hcap, htk]
      rfl
    · rw [hcap, htk]
      rfl
  · intro raw hraw
    unfold normalizeTopics
    rw [if_neg hraw]

/-- C10, witness: the small input passes through unchanged, the 51-segment
input is capped to 50. -/
theorem c10_cap_order_witness :
    capPass exC6 = exC6 ∧ (capPass exC10).length = 50 :=
  ⟨(c10_cap_order_amended exC6).1 (by decide),
   ((c10_cap_order_amended exC10).2.1 (by decide)).1⟩


end QuizApp
